import Mathlib

/-!
# Verification of `mptt/utils.py` (tree reconstruction and annotation utilities)

This file gives a shallow embedding, in Lean, of the three core functions of
`src/mptt/utils.py`:

* `previous_current_next` (the Windowed Iterator),
* `tree_item_iterator` (the Structural Annotator),
* `get_cached_trees` (the Tree Reconstructor),

and proves the specification's testable properties about them.

Modelling conventions:

* A tree node is identified by its position (a `Nat`) in the input sequence;
  its MPTT level (`obj.get_level()` / the `level_attr` attribute) is an `Int`.
* Python attribute mutation (`obj._cached_children`, `setattr(obj, parent_attr, p)`,
  `obj._mptt_use_cached_ancestors`) is modelled by finite-support functions from
  node positions, updated functionally.
* A Python `raise` is modelled with `Except`: `CTError.orderViolation` is the
  `ValueError("Node ... not in depth-first order")`, and `CTError.indexError`
  models the `IndexError` that `current_path[-1]` / `current_path.pop(-1)`
  would raise on an empty list (unreachable in actual runs).
-/

universe u v

namespace Mptt

/-- Pointwise update of a function from node positions, modelling assignment
of a per-object attribute. -/
def updateFn {β : Type u} (f : Nat → β) (i : Nat) (v : β) : Nat → β :=
  fun j => if j = i then v else f j

/-- `n` descending integers starting at `start`. -/
def rangeDownGo : Nat → Int → List Int
  | 0, _ => []
  | n + 1, start => start :: rangeDownGo n (start - 1)

/-- Python's `list(range(start, stop, -1))`: the descending integers
`start, start - 1, ..., stop + 1`; empty when `start ≤ stop`.  The number
of elements produced is exactly `max 0 (start - stop)`. -/
def rangeDown (start stop : Int) : List Int :=
  rangeDownGo (start - stop).toNat start

/-! ## The Windowed Iterator: `previous_current_next`

Source (`src/mptt/utils.py`, lines 22-39):

    extend = itertools.chain([None], items, [None])
    prev, cur, nex = itertools.tee(extend, 3)
    next(cur); next(nex); next(nex)
    return zip(prev, cur, nex)

`zip` truncates to the shortest iterator, so the result pairs `extend` with
its one- and two-step shifts. -/

/-- The Windowed Iterator: triples `(previous, current, next)` over `items`,
with `none` at the boundaries.  `current` is an `Option` because the Python
`zip` draws it from the `None`-extended sequence (it is in fact always
`some`, which is proved below). -/
def previous_current_next {α : Type u} (items : List α) :
    List (Option α × Option α × Option α) :=
  let extend : List (Option α) := none :: (items.map some ++ [none])
  extend.zip ((extend.drop 1).zip (extend.drop 2))

/-- Recursive characterization of `previous_current_next`, used for proofs:
`pcnAux prev l` is the list of triples for the elements of `l`, where `prev`
is the element preceding the head of `l` (or `none`). -/
def pcnAux {α : Type u} : Option α → List α → List (Option α × Option α × Option α)
  | _, [] => []
  | prev, [x] => [(prev, some x, none)]
  | prev, x :: y :: rest => (prev, some x, some y) :: pcnAux (some x) (y :: rest)

/-! ## The Structural Annotator: `tree_item_iterator`

Source (`src/mptt/utils.py`, lines 42-121).  The Python function keeps one
mutable `structure` dict across iterations and yields a deep copy of it for
each item; here the dict is the record `TStruct`, threaded through a
recursion over the `previous_current_next` triples, and the "deep copy" is
just the emitted immutable value.  The level accessor
`getattr(·, opts.level_attr)` is the parameter `lvl`, and the ancestor label
`callback` is the parameter `cb`. -/

/-- The `structure` dict of `tree_item_iterator`.  When the `ancestors`
flag is off, the Python dict simply never gets an `'ancestors'` key; here
the field then just stays `[]`. -/
structure TStruct (β : Type v) where
  new_level : Bool
  closed_levels : List Int
  ancestors : List β

/-- One loop iteration of `tree_item_iterator` plus the rest of the loop:
processes the remaining `(previous, current, next_)` triples, carrying the
`structure` dict `st` and `first_item_level` `fil`. -/
def tiiGo {α : Type u} {β : Type v} (lvl : α → Int) (anc : Bool) (cb : α → β) :
    TStruct β → Int → List (Option α × Option α × Option α) → List (α × TStruct β)
  | _, _, [] => []
  | st, fil, (previous, current, next_) :: rest =>
    match current with
    | none =>
      -- Unreachable: `previous_current_next` always puts `some` in the
      -- `current` slot (see `pcnAux_getElem?`); Python would raise an
      -- `AttributeError` here reading `current._mptt_meta`.
      []
    | some cur =>
      let current_level := lvl cur
      let stfil : TStruct β × Int :=
        match previous with
        | some prev =>
          -- structure["new_level"] = getattr(previous, level_attr) < current_level
          let st := { st with new_level := lvl prev < current_level }
          let st :=
            if anc then
              -- if structure["closed_levels"]:
              --     structure["ancestors"] = structure["ancestors"][: -len(...)]
              let st :=
                if st.closed_levels ≠ [] then
                  { st with ancestors :=
                      st.ancestors.take (st.ancestors.length - st.closed_levels.length) }
                else st
              -- if structure["new_level"]: structure["ancestors"].append(callback(previous))
              if st.new_level then { st with ancestors := st.ancestors ++ [cb prev] } else st
            else st
          (st, fil)
        | none =>
          -- structure["new_level"] = True; ancestors = []; first_item_level = current_level
          let st := { st with new_level := true }
          let st := if anc then { st with ancestors := [] } else st
          (st, current_level)
      let st := stfil.1
      let fil := stfil.2
      let st :=
        match next_ with
        | some nxt =>
          -- structure["closed_levels"] = list(range(current_level, next_level, -1))
          { st with closed_levels := rangeDown current_level (lvl nxt) }
        | none =>
          -- structure["closed_levels"] = list(range(current_level, first_item_level - 1, -1))
          { st with closed_levels := rangeDown current_level (fil - 1) }
      (cur, st) :: tiiGo lvl anc cb st fil rest

/-- The Structural Annotator `tree_item_iterator`: pairs each item with a
snapshot of the tree-structure dict.  `structure = {}` is modelled by unread
default field values, and `first_item_level = 0` is the initial `fil`. -/
def tree_item_iterator {α : Type u} {β : Type v} (items : List α) (lvl : α → Int)
    (anc : Bool) (cb : α → β) : List (α × TStruct β) :=
  tiiGo lvl anc cb ⟨false, [], []⟩ 0 (previous_current_next items)

/-! ## The Tree Reconstructor: `get_cached_trees`

Source (`src/mptt/utils.py`, lines 256-335). -/

/-- The two ways the Python loop can raise: `orderViolation` is the
`ValueError("Node %s not in depth-first order")`; `indexError` models the
`IndexError` that `current_path[-1]` would raise on an empty path (shown
unreachable for real runs). -/
inductive CTError : Type where
  | orderViolation : CTError
  | indexError : CTError
deriving DecidableEq, Repr

/-- The state of the `get_cached_trees` pass over node positions `0, 1, ...`:
the `current_path` stack, the accumulated `top_nodes`, the established
`root_level`, and the per-node attributes `_cached_children`,
`<parent_attr>` and `_mptt_use_cached_ancestors` written onto nodes. -/
structure CTState where
  current_path : List Nat
  top_nodes : List Nat
  root_level : Option Int
  cached_children : Nat → List Nat
  parent : Nat → Option Nat
  use_cached_ancestors : Nat → Bool

/-- The state before the loop: empty path and output, no root level, and no
derived attributes set on any node. -/
def initCTState : CTState :=
  ⟨[], [], none, fun _ => [], fun _ => none, fun _ => false⟩

/-- The `while` loop of the truncation step, with an explicit iteration
budget (each iteration pops one element, so `path.length` iterations always
suffice; running out of budget can only happen with an already empty path,
where Python's `pop(-1)` would raise `IndexError` forever). -/
def truncGo : Nat → List Nat → Int → List Nat
  | 0, path, _ => path
  | fuel + 1, path, t =>
    if (path.length : Int) > t then truncGo fuel path.dropLast t else path

/-- `while len(current_path) > node_level - root_level: current_path.pop(-1)`. -/
def truncatePath (path : List Nat) (t : Int) : List Nat :=
  truncGo path.length path t

/-- One iteration of the `for obj in queryset` loop of `get_cached_trees`,
for the node at position `i` with `node_level = obj.get_level()`. -/
def ctStep (is_filtered : Bool) (s : CTState) (i : Nat) (node_level : Int) :
    Except CTError CTState :=
  -- if root_level is None or (is_filtered and node_level < root_level):
  --     root_level = node_level
  -- elif node_level < root_level: raise ValueError(...)
  let rlRes : Except CTError Int :=
    match s.root_level with
    | none => .ok node_level
    | some rl =>
      if is_filtered = true ∧ node_level < rl then .ok node_level
      else if node_level < rl then .error .orderViolation
      else .ok rl
  match rlRes with
  | .error e => .error e
  | .ok root_level =>
    -- obj._cached_children = []
    let cached_children := updateFn s.cached_children i []
    -- while len(current_path) > node_level - root_level: current_path.pop(-1)
    let path := truncatePath s.current_path (node_level - root_level)
    if node_level = root_level then
      -- top_nodes.append(obj); current_path.append(obj)
      .ok { current_path := path ++ [i],
            top_nodes := s.top_nodes ++ [i],
            root_level := some root_level,
            cached_children := cached_children,
            parent := s.parent,
            use_cached_ancestors := s.use_cached_ancestors }
    else
      -- _parent = current_path[-1]
      match path.getLast? with
      | none => .error .indexError
      | some par =>
        -- setattr(obj, parent_attr, _parent)
        -- _parent._cached_children.append(obj)
        -- if root_level == 0: obj._mptt_use_cached_ancestors = True
        .ok { current_path := path ++ [i],
              top_nodes := s.top_nodes,
              root_level := some root_level,
              cached_children :=
                updateFn cached_children par (cached_children par ++ [i]),
              parent := updateFn s.parent i (some par),
              use_cached_ancestors :=
                if root_level = 0 then updateFn s.use_cached_ancestors i true
                else s.use_cached_ancestors }

/-- The `for obj in queryset` loop: `raise` aborts the pass immediately. -/
def ctRun (is_filtered : Bool) : CTState → List (Nat × Int) → Except CTError CTState
  | s, [] => .ok s
  | s, (i, L) :: rest =>
    match ctStep is_filtered s i L with
    | .error e => .error e
    | .ok s₂ => ctRun is_filtered s₂ rest

/-- `get_cached_trees` on a sequence of nodes given by their levels, with
`is_filtered = hasattr(queryset, "query") and queryset.query.has_filters()`
passed in as a flag.  Node `i` stands for `queryset[i]`.  The empty queryset
skips the loop (`if queryset:`), giving the initial state with
`top_nodes = []`. -/
def getCachedTrees (is_filtered : Bool) (levels : List Int) : Except CTError CTState :=
  ctRun is_filtered initCTState levels.enum

/-- `get_cached_trees` called on a plain Python list (or any object without
a `query` attribute): `hasattr(queryset, "query")` is false, so
`is_filtered` is false. -/
def getCachedTreesOnList (levels : List Int) : Except CTError CTState :=
  getCachedTrees false levels

/-! ## Depth-first consistency

Spec invariant I1: along the sequence, `level(next) ≤ level(current) + 1`,
and the sequence never retreats to a level below the root level established
by the first node. -/

/-- `dfcFrom fl cur rest = true` iff, continuing from a node at level `cur`
with first-node level `fl`, every step of `rest` increases the level by at
most one and never goes below `fl`. -/
def dfcFrom (fl : Int) : Int → List Int → Bool
  | _, [] => true
  | cur, nxt :: rest => decide (nxt ≤ cur + 1) && decide (fl ≤ nxt) && dfcFrom fl nxt rest

/-- Depth-first consistency of a level sequence (spec invariant I1): each
level is at most one deeper than its predecessor, and no level is below the
first node's level. -/
def dfConsistent : List Int → Bool
  | [] => true
  | l₀ :: rest => dfcFrom l₀ l₀ rest

/-! ## Depth-first pre-order flattening of the reconstructed forest

Used to state the Reconstructor round-trip property: roots in `top_nodes`
order, then each node followed by its `_cached_children` recursively.  The
recursion is fuelled; `levels.length + 1` fuel always suffices because every
cached child was appended after its parent, so child positions strictly
increase with depth. -/

/-- Pre-order flattening of the subtree rooted at position `i`, reading
child lists from `children`, with recursion fuel `fuel`. -/
def flattenFrom (children : Nat → List Nat) : Nat → Nat → List Nat
  | 0, _ => []
  | fuel + 1, i => i :: (children i).flatMap (flattenFrom children fuel)

/-- Pre-order flattening of a whole forest: the trees of `tops` in order. -/
def flattenForest (children : Nat → List Nat) (fuel : Nat) (tops : List Nat) :
    List Nat :=
  tops.flatMap (flattenFrom children fuel)

/-- The `closed_levels` values emitted from a node `x` onwards, given
`first_item_level = fil`: `range(level, next_level, -1)` at each inner node
and `range(level, fil - 1, -1)` at the last node. -/
def closedLvlsList {α : Type u} (lvl : α → Int) (fil : Int) : α → List α → List (List Int)
  | x, [] => [rangeDown (lvl x) (fil - 1)]
  | x, y :: rest => rangeDown (lvl x) (lvl y) :: closedLvlsList lvl fil y rest

/-- The `new_level` values emitted from a node `x` onwards when `p` is the
node before `x`: `level(previous) < level(current)` at each node. -/
def newFlagsList {α : Type u} (lvl : α → Int) : α → List α → List Bool
  | _, [] => []
  | p, x :: rest => decide (lvl p < lvl x) :: newFlagsList lvl x rest

/-- The loop invariant of `get_cached_trees` for the round-trip property,
after `k` nodes have been processed: the forest flattening is exactly the
processed prefix `[0, ..., k-1]` (for any sufficient fuel), the current
path is a last-children chain starting at the last top node, path entries
are strictly increasing positions below `k`, and no position `≥ k` has any
cached children yet. -/
structure FlattenInv (k : Nat) (path tops : List Nat)
    (children : Nat → List Nat) : Prop where
  flat : ∀ fuel, k + 1 ≤ fuel →
    flattenForest children fuel tops = List.range k
  spine_head : path.head? = tops.getLast?
  spine_chain : List.Chain' (fun a b => (children a).getLast? = some b) path
  path_lt : ∀ x ∈ path, x < k
  path_sorted : List.Pairwise (· < ·) path
  path_len : path.length ≤ k
  children_hi : ∀ j, k ≤ j → children j = []

/-! ## Properties of the Windowed Iterator -/

theorem pcnAux_eq_zip {α : Type u} (items : List α) (x : Option α) :
    ((x :: (items.map some ++ [none])).zip
      ((items.map some ++ [none]).zip ((items.map some ++ [none]).drop 1)))
    = pcnAux x items := by
  induction items generalizing x with
  | nil => simp [pcnAux]
  | cons y t ih =>
    cases t with
    | nil => simp [pcnAux]
    | cons z t =>
      simp only [List.map_cons, List.cons_append, List.drop_succ_cons,
        List.drop_zero, List.zip_cons_cons, pcnAux]
      exact congrArg _ (ih (some y))

theorem previous_current_next_eq_pcnAux {α : Type u} (items : List α) :
    previous_current_next items = pcnAux none items := by
  unfold previous_current_next
  simpa using pcnAux_eq_zip items none

theorem pcnAux_length {α : Type u} (prev : Option α) (l : List α) :
    (pcnAux prev l).length = l.length := by
  induction l generalizing prev with
  | nil => rfl
  | cons x t ih =>
    cases t with
    | nil => rfl
    | cons y t => simpa [pcnAux] using ih (some x)

theorem pcnAux_getElem? {α : Type u} (prev : Option α) (l : List α) (i : Nat)
    (hi : i < l.length) :
    (pcnAux prev l)[i]? =
      some (if i = 0 then prev else l[i - 1]?, l[i]?, l[i + 1]?) := by
  induction l generalizing prev i with
  | nil => simp at hi
  | cons x t ih =>
    cases t with
    | nil =>
      have : i = 0 := by simpa using Nat.lt_one_iff.mp (by simpa using hi)
      subst this
      simp [pcnAux]
    | cons y t =>
      cases i with
      | zero => simp [pcnAux]
      | succ j =>
        have hj : j < (y :: t).length := by simpa using hi
        rw [pcnAux, List.getElem?_cons_succ, ih (some x) j hj]
        cases j with
        | zero => simp
        | succ k => simp

/-! ## Basic characterizations of the loop helpers -/

theorem rangeDownGo_eq_map (n : Nat) (start : Int) :
    rangeDownGo n start = (List.range n).map (fun (k : Nat) => start - (k : Int)) := by
  induction n generalizing start with
  | zero => rfl
  | succ m ih =>
    rw [rangeDownGo, ih (start - 1), List.range_succ_eq_map, List.map_cons,
      List.map_map]
    congr 1
    · simp
    · refine List.map_congr_left fun k _ => ?_
      simp only [Function.comp_apply]
      push_cast
      ring

theorem rangeDown_eq_map (start stop : Int) :
    rangeDown start stop =
      (List.range (start - stop).toNat).map (fun (k : Nat) => start - (k : Int)) :=
  rangeDownGo_eq_map _ _

theorem length_rangeDown (start stop : Int) :
    (rangeDown start stop).length = (start - stop).toNat := by
  simp [rangeDown_eq_map]

theorem rangeDown_eq_nil_iff (start stop : Int) :
    rangeDown start stop = [] ↔ start ≤ stop := by
  rw [← List.length_eq_zero, length_rangeDown]
  omega

theorem truncGo_eq_take (fuel : Nat) (path : List Nat) (t : Int) (ht : 0 ≤ t)
    (hf : path.length ≤ fuel) :
    truncGo fuel path t = path.take t.toNat := by
  induction fuel generalizing path with
  | zero =>
    have h0 : path = [] := List.length_eq_zero.mp (Nat.le_zero.mp hf)
    subst h0
    simp [truncGo]
  | succ m ih =>
    rw [truncGo]
    by_cases h : (path.length : Int) > t
    · rw [if_pos h, ih path.dropLast (by rw [List.length_dropLast]; omega)]
      rw [List.dropLast_eq_take, List.take_take]
      congr 1
      omega
    · rw [if_neg h]
      exact (List.take_of_length_le (by omega)).symm

theorem truncatePath_eq_take (path : List Nat) (t : Int) (ht : 0 ≤ t) :
    truncatePath path t = path.take t.toNat :=
  truncGo_eq_take _ _ _ ht le_rfl

/-! ## The Annotator's emitted `closed_levels` and `new_level` streams

`closed_levels` and `new_level` are recomputed from scratch at every
iteration (only `ancestors` carries state), so the emitted streams have
simple closed forms. -/

theorem tiiGo_map_closed {α : Type u} {β : Type v} (lvl : α → Int) (anc : Bool)
    (cb : α → β) (p x : α) (rest : List α) (st : TStruct β) (fil : Int) :
    (tiiGo lvl anc cb st fil (pcnAux (some p) (x :: rest))).map
        (fun e => e.2.closed_levels)
      = closedLvlsList lvl fil x rest := by
  induction rest generalizing p x st with
  | nil => simp [pcnAux, tiiGo, closedLvlsList]
  | cons y rest ih =>
    simp only [pcnAux, tiiGo, List.map_cons, closedLvlsList]
    exact List.cons_eq_cons.mpr ⟨rfl, ih x y _⟩

theorem tiiGo_map_new {α : Type u} {β : Type v} (lvl : α → Int) (anc : Bool)
    (cb : α → β) (p x : α) (rest : List α) (st : TStruct β) (fil : Int) :
    (tiiGo lvl anc cb st fil (pcnAux (some p) (x :: rest))).map
        (fun e => e.2.new_level)
      = newFlagsList lvl p (x :: rest) := by
  induction rest generalizing p x st with
  | nil =>
    simp only [pcnAux, tiiGo, List.map_cons, List.map_nil, newFlagsList]
    refine List.cons_eq_cons.mpr ⟨?_, rfl⟩
    repeat first
    | rfl
    | split
  | cons y rest ih =>
    simp only [pcnAux, tiiGo, List.map_cons, newFlagsList]
    refine List.cons_eq_cons.mpr ⟨?_, ih x y _⟩
    repeat first
    | rfl
    | split

theorem tii_map_closed {α : Type u} {β : Type v} (lvl : α → Int) (anc : Bool)
    (cb : α → β) (x : α) (rest : List α) :
    (tree_item_iterator (x :: rest) lvl anc cb).map (fun e => e.2.closed_levels)
      = closedLvlsList lvl (lvl x) x rest := by
  rw [tree_item_iterator, previous_current_next_eq_pcnAux]
  cases rest with
  | nil => simp [pcnAux, tiiGo, closedLvlsList]
  | cons y rest =>
    simp only [pcnAux, tiiGo, List.map_cons, closedLvlsList]
    exact List.cons_eq_cons.mpr ⟨rfl, tiiGo_map_closed lvl anc cb x y rest _ (lvl x)⟩

theorem tii_map_new {α : Type u} {β : Type v} (lvl : α → Int) (anc : Bool)
    (cb : α → β) (x : α) (rest : List α) :
    (tree_item_iterator (x :: rest) lvl anc cb).map (fun e => e.2.new_level)
      = true :: newFlagsList lvl x rest := by
  rw [tree_item_iterator, previous_current_next_eq_pcnAux]
  cases rest with
  | nil => simp [pcnAux, tiiGo, newFlagsList]
  | cons y rest =>
    simp only [pcnAux, tiiGo, List.map_cons, newFlagsList]
    refine List.cons_eq_cons.mpr ⟨?_, tiiGo_map_new lvl anc cb x y rest _ (lvl x)⟩
    repeat first
    | rfl
    | split

theorem closedLvlsList_getD {α : Type u} (lvl : α → Int) (fil : Int) (x : α)
    (rest : List α) (i : Nat) (hi : i < (x :: rest).length) :
    (closedLvlsList lvl fil x rest).getD i []
      = rangeDown (((x :: rest).map lvl).getD i 0)
          (if i + 1 < (x :: rest).length then ((x :: rest).map lvl).getD (i + 1) 0
           else fil - 1) := by
  induction rest generalizing x i with
  | nil =>
    have h0 : i = 0 := by simpa using Nat.lt_one_iff.mp (by simpa using hi)
    subst h0
    simp [closedLvlsList]
  | cons y rest ih =>
    cases i with
    | zero => simp [closedLvlsList]
    | succ j =>
      have hj : j < (y :: rest).length := by simpa using hi
      have := ih y j hj
      simp only [closedLvlsList, List.getD_cons_succ, List.map_cons,
        List.length_cons] at this ⊢
      rw [this]
      by_cases hc : j + 1 < (y :: rest).length
      · rw [if_pos (by simpa using hc), if_pos (by simpa using Nat.succ_lt_succ hc)]
      · rw [if_neg (by simpa using hc),
          if_neg (by simp only [List.length_cons] at hc ⊢; omega)]

/-! ## Claim C2: surgery lemmas for the pre-order flattening

The reconstruction loop only ever appends a new node either as a new last
top node, or as a new last child of the node at the bottom of the current
path — which is reachable from the last top node by repeatedly taking last
children (the "rightmost spine").  The lemmas here show that such an
append extends the pre-order flattening of the forest by exactly that
node. -/

/-- Updating the child list of a node that does not occur in a subtree does
not change that subtree's flattening. -/
theorem flattenFrom_update_of_not_mem (children : Nat → List Nat) (p : Nat)
    (v : List Nat) :
    ∀ (fuel : Nat) (r : Nat), p ∉ flattenFrom children fuel r →
      flattenFrom (updateFn children p v) fuel r = flattenFrom children fuel r := by
  intro fuel
  induction fuel with
  | zero => intro r _; rfl
  | succ f ih =>
    intro r hp
    rw [flattenFrom] at hp
    have hrp : r ≠ p := by
      intro h
      exact hp (by rw [← h]; exact List.mem_cons_self _ _)
    rw [flattenFrom, flattenFrom]
    have hup : updateFn children p v r = children r := by simp [updateFn, hrp]
    rw [hup]
    congr 1
    refine List.flatMap_congr fun d hd => ih d fun hmem => hp ?_
    exact List.mem_cons_of_mem _ (List.mem_flatMap.mpr ⟨d, hd, hmem⟩)

/-- The end of a last-children chain starting at `r` occurs in the
flattening of `r`'s subtree (given enough fuel). -/
theorem getLast_mem_flattenFrom (children : Nat → List Nat) :
    ∀ (path : List Nat) (r p : Nat) (fuel : Nat),
      List.Chain' (fun a b => (children a).getLast? = some b) (r :: path) →
      (r :: path).getLast? = some p →
      path.length + 1 ≤ fuel →
      p ∈ flattenFrom children fuel r := by
  intro path
  induction path with
  | nil =>
    intro r p fuel _ hlast hfuel
    obtain ⟨f, rfl⟩ : ∃ f, fuel = f + 1 := ⟨fuel - 1, by omega⟩
    simp only [List.getLast?_singleton, Option.some_inj] at hlast
    subst hlast
    rw [flattenFrom]
    exact List.mem_cons_self _ _
  | cons b rest ih =>
    intro r p fuel hchain hlast hfuel
    obtain ⟨f, rfl⟩ : ∃ f, fuel = f + 1 := ⟨fuel - 1, by omega⟩
    rw [List.chain'_cons] at hchain
    obtain ⟨hrb, hchain2⟩ := hchain
    rw [List.getLast?_cons_cons] at hlast
    simp only [List.length_cons] at hfuel
    have hmem := ih b p f hchain2 hlast (by omega)
    rw [flattenFrom]
    refine List.mem_cons_of_mem _ (List.mem_flatMap.mpr ⟨b, ?_, hmem⟩)
    exact List.mem_of_mem_getLast? hrb

/-- Appending a fresh childless node `c` as a new last child of the node
`p` at the end of a last-children chain extends the flattening of the
chain's root by exactly `[c]`. -/
theorem flattenFrom_append_spine (children : Nat → List Nat) (c : Nat)
    (hc : children c = []) :
    ∀ (path : List Nat) (r p : Nat) (fuel : Nat),
      List.Chain' (fun a b => (children a).getLast? = some b) (r :: path) →
      (r :: path).getLast? = some p →
      (flattenFrom children fuel r).Nodup →
      c ∉ flattenFrom children fuel r →
      c ≠ p →
      path.length + 2 ≤ fuel →
      flattenFrom (updateFn children p (children p ++ [c])) fuel r
        = flattenFrom children fuel r ++ [c] := by
  intro path
  induction path with
  | nil =>
    intro r p fuel _ hlast hnd hcmem hcp hfuel
    simp only [List.getLast?_singleton, Option.some_inj] at hlast
    subst hlast
    obtain ⟨f2, rfl⟩ : ∃ f2, fuel = f2 + 1 + 1 := ⟨fuel - 2, by omega⟩
    rw [flattenFrom] at hnd hcmem
    have hnd2 := List.nodup_cons.mp hnd
    rw [flattenFrom, flattenFrom]
    have hupd : updateFn children r (children r ++ [c]) r = children r ++ [c] := by
      simp [updateFn]
    rw [hupd, List.flatMap_append]
    have hflat : (children r).flatMap
          (flattenFrom (updateFn children r (children r ++ [c])) (f2 + 1))
        = (children r).flatMap (flattenFrom children (f2 + 1)) := by
      refine List.flatMap_congr fun d hd => ?_
      refine flattenFrom_update_of_not_mem children r _ (f2 + 1) d fun hmem => ?_
      exact hnd2.1 (List.mem_flatMap.mpr ⟨d, hd, hmem⟩)
    have hcr : c ≠ r := hcp
    have hcflat : flattenFrom (updateFn children r (children r ++ [c])) (f2 + 1) c
        = [c] := by
      rw [flattenFrom]
      have hu2 : updateFn children r (children r ++ [c]) c = children c := by
        simp [updateFn, hcr]
      rw [hu2, hc]
      rfl
    simp [hflat, hcflat]
  | cons b rest ih =>
    intro r p fuel hchain hlast hnd hcmem hcp hfuel
    obtain ⟨f, rfl⟩ : ∃ f, fuel = f + 1 := ⟨fuel - 1, by omega⟩
    rw [List.chain'_cons] at hchain
    obtain ⟨hrb, hchain2⟩ := hchain
    rw [List.getLast?_cons_cons] at hlast
    simp only [List.length_cons] at hfuel
    have hpmem : p ∈ flattenFrom children f b :=
      getLast_mem_flattenFrom children rest b p f hchain2 hlast (by omega)
    rw [flattenFrom] at hnd hcmem
    have hnd2 := List.nodup_cons.mp hnd
    have hrb_mem : b ∈ children r := List.mem_of_mem_getLast? hrb
    have hrp : r ≠ p := by
      intro h
      subst h
      exact hnd2.1 (List.mem_flatMap.mpr ⟨b, hrb_mem, hpmem⟩)
    rw [flattenFrom, flattenFrom]
    have hupd : updateFn children p (children p ++ [c]) r = children r := by
      simp [updateFn, hrp]
    rw [hupd]
    have hner : children r ≠ [] := by
      intro h; rw [h] at hrb; simp at hrb
    have hgl : (children r).getLast hner = b := by
      have h1 := List.getLast?_eq_getLast (children r) hner
      rw [h1] at hrb
      exact Option.some_inj.mp hrb
    have hsplit : children r = (children r).dropLast ++ [b] := by
      conv_lhs => rw [← List.dropLast_append_getLast hner]
      rw [hgl]
    rw [hsplit, List.flatMap_append, List.flatMap_append]
    simp only [List.flatMap_cons, List.flatMap_nil, List.append_nil]
    have hndA : ((children r).flatMap (flattenFrom children f)).Nodup := hnd2.2
    rw [hsplit, List.flatMap_append] at hndA
    simp only [List.flatMap_cons, List.flatMap_nil, List.append_nil] at hndA
    rw [List.nodup_append] at hndA
    obtain ⟨hA, hB, hdisj⟩ := hndA
    have hAcongr : ((children r).dropLast).flatMap
          (flattenFrom (updateFn children p (children p ++ [c])) f)
        = ((children r).dropLast).flatMap (flattenFrom children f) := by
      refine List.flatMap_congr fun d hd => ?_
      refine flattenFrom_update_of_not_mem children p _ f d fun hmem => ?_
      exact hdisj (List.mem_flatMap.mpr ⟨d, hd, hmem⟩) hpmem
    have hcB : c ∉ flattenFrom children f b := by
      intro hmem
      refine hcmem (List.mem_cons_of_mem _ ?_)
      exact List.mem_flatMap.mpr ⟨b, hrb_mem, hmem⟩
    have hIH := ih b p f hchain2 hlast hB hcB hcp (by omega)
    rw [hAcongr, hIH]
    simp

/-- Appending a fresh childless node `c` as a new last child of the node
`p` at the end of the rightmost spine (starting at the last top node)
extends the flattening of the whole forest by exactly `[c]`. -/
theorem flattenForest_append_spine (children : Nat → List Nat) (c : Nat)
    (hc : children c = []) (tops sp : List Nat) (p : Nat) (fuel : Nat)
    (hhead : sp.head? = tops.getLast?)
    (hchain : List.Chain' (fun a b => (children a).getLast? = some b) sp)
    (hlast : sp.getLast? = some p)
    (hnd : (flattenForest children fuel tops).Nodup)
    (hcmem : c ∉ flattenForest children fuel tops)
    (hcp : c ≠ p)
    (hfuel : sp.length + 1 ≤ fuel) :
    flattenForest (updateFn children p (children p ++ [c])) fuel tops
      = flattenForest children fuel tops ++ [c] := by
  cases sp with
  | nil => simp at hlast
  | cons r path =>
    have htopsne : tops ≠ [] := by
      intro h
      rw [h] at hhead
      simp at hhead
    have hglt : tops.getLast htopsne = r := by
      have h1 := List.getLast?_eq_getLast tops htopsne
      rw [h1, List.head?_cons] at hhead
      exact (Option.some_inj.mp hhead).symm
    have hsplit : tops = tops.dropLast ++ [r] := by
      conv_lhs => rw [← List.dropLast_append_getLast htopsne]
      rw [hglt]
    simp only [List.length_cons] at hfuel
    have hpmem : p ∈ flattenFrom children fuel r :=
      getLast_mem_flattenFrom children path r p fuel hchain hlast (by omega)
    rw [flattenForest, hsplit, List.flatMap_append] at hnd hcmem
    simp only [List.flatMap_cons, List.flatMap_nil, List.append_nil] at hnd hcmem
    rw [List.nodup_append] at hnd
    obtain ⟨hA, hB, hdisj⟩ := hnd
    rw [flattenForest, flattenForest, hsplit, List.flatMap_append,
      List.flatMap_append]
    simp only [List.flatMap_cons, List.flatMap_nil, List.append_nil]
    have hAcongr : (tops.dropLast).flatMap
          (flattenFrom (updateFn children p (children p ++ [c])) fuel)
        = (tops.dropLast).flatMap (flattenFrom children fuel) := by
      refine List.flatMap_congr fun d hd => ?_
      refine flattenFrom_update_of_not_mem children p _ fuel d fun hmem => ?_
      exact hdisj (List.mem_flatMap.mpr ⟨d, hd, hmem⟩) hpmem
    have hcB : c ∉ flattenFrom children fuel r := fun hmem =>
      hcmem (List.mem_append.mpr (Or.inr hmem))
    have hmain := flattenFrom_append_spine children c hc path r p fuel hchain
      hlast hB hcB hcp (by simpa using hfuel)
    rw [hAcongr, hmain]
    simp

theorem updateFn_eq_self {β : Type u} (f : Nat → β) (i : Nat) (v : β)
    (h : f i = v) : updateFn f i v = f := by
  funext j
  by_cases hj : j = i
  · subst hj
    simp [updateFn, h]
  · simp [updateFn, hj]

/-- The invariant survives the root branch: node `k` becomes the new last
top node with a fresh empty child list, and the path restarts at `[k]`. -/
theorem FlattenInv.root_step (k : Nat) (path tops : List Nat)
    (children : Nat → List Nat) (inv : FlattenInv k path tops children) :
    FlattenInv (k + 1) [k] (tops ++ [k]) (updateFn children k []) := by
  have hck : children k = [] := inv.children_hi k le_rfl
  rw [updateFn_eq_self children k [] hck]
  refine ⟨?_, ?_, ?_, ?_, ?_, ?_, ?_⟩
  · intro fuel hf
    obtain ⟨f, rfl⟩ : ∃ f, fuel = f + 1 := ⟨fuel - 1, by omega⟩
    rw [flattenForest, List.flatMap_append]
    simp only [List.flatMap_cons, List.flatMap_nil, List.append_nil]
    rw [← flattenForest, inv.flat (f + 1) (by omega), flattenFrom, hck]
    simp [List.range_succ]
  · simp
  · exact List.chain'_singleton k
  · intro x hx
    simp only [List.mem_singleton] at hx
    omega
  · exact List.pairwise_singleton _ k
  · simp only [List.length_cons, List.length_nil]
    omega
  · intro j hj
    exact inv.children_hi j (by omega)

/-- The invariant survives the child branch: node `k` is appended as the
new last child of the node `p` at the bottom of the truncated path, which
extends the flattening by `[k]` and the spine by `k`. -/
theorem FlattenInv.child_step (k : Nat) (path tops : List Nat)
    (children : Nat → List Nat) (inv : FlattenInv k path tops children)
    (tN : Nat) (p : Nat) (hlast : (path.take tN).getLast? = some p) :
    FlattenInv (k + 1) (path.take tN ++ [k]) tops
      (updateFn (updateFn children k []) p
        ((updateFn children k []) p ++ [k])) := by
  have hck : children k = [] := inv.children_hi k le_rfl
  rw [updateFn_eq_self children k [] hck]
  have hpmem : p ∈ path :=
    (List.take_sublist tN path).subset (List.mem_of_mem_getLast? hlast)
  have hpk : p < k := inv.path_lt p hpmem
  have hspne : path.take tN ≠ [] := by
    intro h
    rw [h] at hlast
    simp at hlast
  have hpathne : path ≠ [] := by
    intro h
    rw [h] at hspne
    simp at hspne
  have hhead : (path.take tN).head? = tops.getLast? := by
    rw [List.head?_take, if_neg ?_, inv.spine_head]
    intro h
    rw [h] at hspne
    simp at hspne
  have hchain : List.Chain'
      (fun a b => (children a).getLast? = some b) (path.take tN) :=
    inv.spine_chain.take tN
  have hsorted : List.Pairwise (· < ·) (path.take tN) :=
    List.Pairwise.sublist (List.take_sublist tN path) inv.path_sorted
  have hlt : ∀ x ∈ path.take tN, x < k := fun x hx =>
    inv.path_lt x ((List.take_sublist tN path).subset hx)
  -- within the truncated path, every element other than the last is below p
  have hchain2 : List.Chain'
      (fun a b => ((updateFn children p (children p ++ [k])) a).getLast?
        = some b) (path.take tN) := by
    have key : ∀ (l : List Nat),
        List.Chain' (fun a b => (children a).getLast? = some b) l →
        List.Pairwise (· < ·) l → l.getLast? = some p →
        List.Chain' (fun a b =>
          ((updateFn children p (children p ++ [k])) a).getLast? = some b) l := by
      intro l
      induction l with
      | nil => intro _ _ h; simp at h
      | cons a l2 ihl =>
        intro hch hpw hls
        cases l2 with
        | nil => exact List.chain'_singleton a
        | cons b l3 =>
          rw [List.chain'_cons] at hch ⊢
          rw [List.getLast?_cons_cons] at hls
          refine ⟨?_, ihl hch.2 (List.Pairwise.sublist (by simp) hpw) hls⟩
          have hap : a ≠ p := by
            have hplater : p ∈ b :: l3 := List.mem_of_mem_getLast? hls
            have := List.pairwise_cons.mp hpw
            exact Nat.ne_of_lt (this.1 p hplater)
          rw [show (updateFn children p (children p ++ [k])) a = children a by
            simp [updateFn, hap]]
          exact hch.1
    exact key (path.take tN) hchain hsorted hlast
  refine ⟨?_, ?_, ?_, ?_, ?_, ?_, ?_⟩
  · intro fuel hf
    have hmain := flattenForest_append_spine children k hck tops
      (path.take tN) p fuel hhead hchain hlast
      (by rw [inv.flat fuel (by omega)]; exact List.nodup_range k)
      (by rw [inv.flat fuel (by omega)]; simp)
      (by omega) ?_
    · rw [hmain, inv.flat fuel (by omega), List.range_succ]
    · have : (path.take tN).length ≤ path.length := by
        simp [List.length_take]
      have := inv.path_len
      omega
  · rw [List.head?_append]
    have : (path.take tN).head?.isSome = true := by
      rw [Option.isSome_iff_ne_none]
      intro h
      rw [List.head?_eq_none_iff] at h
      exact hspne h
    rw [Option.or_of_isSome this]
    exact hhead
  · rw [List.chain'_append]
    refine ⟨hchain2, List.chain'_singleton k, ?_⟩
    intro x hx y hy
    rw [hlast] at hx
    simp only [Option.mem_def, Option.some_inj] at hx
    simp only [List.head?_cons, Option.mem_def, Option.some_inj] at hy
    subst hx
    subst hy
    rw [show (updateFn children p (children p ++ [k])) p
        = children p ++ [k] by simp [updateFn]]
    exact List.getLast?_concat _
  · intro x hx
    rcases List.mem_append.mp hx with h | h
    · exact Nat.lt_succ_of_lt (hlt x h)
    · simp only [List.mem_singleton] at h
      omega
  · rw [List.pairwise_append]
    refine ⟨hsorted, List.pairwise_singleton _ k, ?_⟩
    intro a ha b hb
    simp only [List.mem_singleton] at hb
    subst hb
    exact hlt a ha
  · have h1 : (path.take tN).length ≤ path.length := by
      simp [List.length_take]
    have h2 := inv.path_len
    simp only [List.length_append, List.length_cons, List.length_nil]
    omega
  · intro j hj
    have hjp : j ≠ p := by omega
    have hjk : j ≠ k := by omega
    rw [show (updateFn children p (children p ++ [k])) j = children j by
      simp [updateFn, hjp]]
    exact inv.children_hi j (by omega)

/-- Running the reconstruction loop preserves the round-trip invariant,
advancing the processed count by the number of consumed nodes. -/
theorem ctRun_flatten_inv (filtered : Bool) :
    ∀ (rest : List Int) (k : Nat) (s : CTState),
      FlattenInv k s.current_path s.top_nodes s.cached_children →
      ∀ s₂, ctRun filtered s (List.enumFrom k rest) = .ok s₂ →
      FlattenInv (k + rest.length) s₂.current_path s₂.top_nodes
        s₂.cached_children := by
  intro rest
  induction rest with
  | nil =>
    intro k s hinv s₂ hrun
    simp only [List.enumFrom, ctRun] at hrun
    cases hrun
    simpa using hinv
  | cons x rest ih =>
    intro k s hinv s₂ hrun
    rw [List.enumFrom, ctRun] at hrun
    have hlen : k + (x :: rest).length = (k + 1) + rest.length := by
      simp only [List.length_cons]
      omega
    rw [hlen]
    -- analyze the step on node k at level x
    cases hrl : s.root_level with
    | none =>
      have htr0 : truncatePath s.current_path 0 = [] := by
        rw [truncatePath_eq_take _ _ le_rfl]
        simp
      have hok : ctStep filtered s k x =
          .ok { current_path := [k], top_nodes := s.top_nodes ++ [k],
                root_level := some x,
                cached_children := updateFn s.cached_children k [],
                parent := s.parent,
                use_cached_ancestors := s.use_cached_ancestors } := by
        simp [ctStep, hrl, htr0]
      rw [hok] at hrun
      replace hrun : ctRun filtered
          { current_path := [k], top_nodes := s.top_nodes ++ [k],
            root_level := some x,
            cached_children := updateFn s.cached_children k [],
            parent := s.parent,
            use_cached_ancestors := s.use_cached_ancestors }
          (List.enumFrom (k + 1) rest) = .ok s₂ := hrun
      exact ih (k + 1) _ (hinv.root_step k _ _ _) s₂ hrun
    | some rl =>
      by_cases hlow : filtered = true ∧ x < rl
      · have htr0 : truncatePath s.current_path 0 = [] := by
          rw [truncatePath_eq_take _ _ le_rfl]
          simp
        have hok : ctStep filtered s k x =
            .ok { current_path := [k], top_nodes := s.top_nodes ++ [k],
                  root_level := some x,
                  cached_children := updateFn s.cached_children k [],
                  parent := s.parent,
                  use_cached_ancestors := s.use_cached_ancestors } := by
          simp [ctStep, hrl, hlow, htr0]
        rw [hok] at hrun
        replace hrun : ctRun filtered
            { current_path := [k], top_nodes := s.top_nodes ++ [k],
              root_level := some x,
              cached_children := updateFn s.cached_children k [],
              parent := s.parent,
              use_cached_ancestors := s.use_cached_ancestors }
            (List.enumFrom (k + 1) rest) = .ok s₂ := hrun
        exact ih (k + 1) _ (hinv.root_step k _ _ _) s₂ hrun
      · by_cases herr : x < rl
        · have hfil : filtered = false := by
            cases filtered with
            | false => rfl
            | true => exact absurd ⟨rfl, herr⟩ hlow
          have hbad : ctStep filtered s k x = .error .orderViolation := by
            simp [ctStep, hrl, hfil, herr]
          rw [hbad] at hrun
          simp at hrun
        · by_cases heq : x = rl
          · subst heq
            have htr0 : truncatePath s.current_path 0 = [] := by
              rw [truncatePath_eq_take _ _ le_rfl]
              simp
            have hok : ctStep filtered s k x =
                .ok { current_path := [k], top_nodes := s.top_nodes ++ [k],
                      root_level := some x,
                      cached_children := updateFn s.cached_children k [],
                      parent := s.parent,
                      use_cached_ancestors := s.use_cached_ancestors } := by
              simp [ctStep, hrl, hlow, herr, htr0]
            rw [hok] at hrun
            replace hrun : ctRun filtered
                { current_path := [k], top_nodes := s.top_nodes ++ [k],
                  root_level := some x,
                  cached_children := updateFn s.cached_children k [],
                  parent := s.parent,
                  use_cached_ancestors := s.use_cached_ancestors }
                (List.enumFrom (k + 1) rest) = .ok s₂ := hrun
            exact ih (k + 1) _ (hinv.root_step k _ _ _) s₂ hrun
          · have htr : truncatePath s.current_path (x - rl)
                = s.current_path.take (x - rl).toNat :=
              truncatePath_eq_take _ _ (by omega)
            cases hgl : (s.current_path.take (x - rl).toNat).getLast? with
            | none =>
              have hbad : ctStep filtered s k x = .error .indexError := by
                simp [ctStep, hrl, hlow, herr, heq, htr, hgl]
              rw [hbad] at hrun
              simp at hrun
            | some p =>
              have hok : ctStep filtered s k x =
                  .ok { current_path := s.current_path.take (x - rl).toNat ++ [k],
                        top_nodes := s.top_nodes,
                        root_level := some rl,
                        cached_children :=
                          updateFn (updateFn s.cached_children k []) p
                            ((updateFn s.cached_children k []) p ++ [k]),
                        parent := updateFn s.parent k (some p),
                        use_cached_ancestors :=
                          if rl = 0 then updateFn s.use_cached_ancestors k true
                          else s.use_cached_ancestors } := by
                simp [ctStep, hrl, hlow, herr, heq, htr, hgl]
              rw [hok] at hrun
              replace hrun : ctRun filtered
                  { current_path := s.current_path.take (x - rl).toNat ++ [k],
                    top_nodes := s.top_nodes,
                    root_level := some rl,
                    cached_children :=
                      updateFn (updateFn s.cached_children k []) p
                        ((updateFn s.cached_children k []) p ++ [k]),
                    parent := updateFn s.parent k (some p),
                    use_cached_ancestors :=
                      if rl = 0 then updateFn s.use_cached_ancestors k true
                      else s.use_cached_ancestors }
                  (List.enumFrom (k + 1) rest) = .ok s₂ := hrun
              exact ih (k + 1) _
                (hinv.child_step k _ _ _ ((x - rl).toNat) p hgl) s₂ hrun

/-- C2: for every depth-first-consistent input on which `get_cached_trees`
completes without raising, flattening the returned top nodes by depth-first
pre-order traversal (top nodes in order, then each node's cached children
recursively) reproduces the input sequence — i.e. the node positions
`0, 1, ..., n-1` in order. -/
theorem cached_trees_roundtrip (levels : List Int) (filtered : Bool)
    (hdf : dfConsistent levels = true)
    (hok : (getCachedTrees filtered levels).isOk = true) :
    (getCachedTrees filtered levels).map
        (fun s => flattenForest s.cached_children (levels.length + 1) s.top_nodes)
      = .ok (List.range levels.length) := by
  cases hres : getCachedTrees filtered levels with
  | error e =>
    rw [hres] at hok
    simp [Except.isOk, Except.toBool] at hok
  | ok s₂ =>
    have hrun : ctRun filtered initCTState (List.enumFrom 0 levels) = .ok s₂ :=
      hres
    have hinv0 : FlattenInv 0 initCTState.current_path initCTState.top_nodes
        initCTState.cached_children := by
      refine ⟨fun _ _ => rfl, rfl, List.chain'_nil, ?_, List.Pairwise.nil,
        le_rfl, fun _ _ => rfl⟩
      intro x hx
      simp [initCTState] at hx
    have hfin := ctRun_flatten_inv filtered levels 0 initCTState hinv0 s₂ hrun
    rw [Nat.zero_add] at hfin
    simp only [Except.map]
    exact congrArg Except.ok (hfin.flat (levels.length + 1) (by omega))

/-- Witness for C2: levels `[0, 1, 2, 1, 0]` in plain-list mode flatten
back to the positions `[0, 1, 2, 3, 4]`. -/
theorem cached_trees_roundtrip_witness :
    (getCachedTrees false [0, 1, 2, 1, 0]).map
        (fun s => flattenForest s.cached_children
          (([0, 1, 2, 1, 0] : List Int).length + 1) s.top_nodes)
      = .ok (List.range ([0, 1, 2, 1, 0] : List Int).length) :=
  cached_trees_roundtrip [0, 1, 2, 1, 0] false (by decide) (by decide)

/-! ## Claim C5: the `closed_levels` of each frame -/

/-- C5: for a depth-first-consistent input, frame `i` of
`tree_item_iterator` has `closed_levels` equal to the contiguous strictly
descending range from the current node's level down to (exclusive) the next
node's level — in particular empty when the next node is deeper — and, for
the final node, down to (inclusive) the first node's level (i.e. exclusive
of `first level - 1`).  The range is spelled out elementwise:
`closed_levels[k] = level(i) - k`, with length `level(i) - stop` (clamped
at 0). -/
theorem closed_levels_eq_descending_range {α : Type u} {β : Type v}
    (items : List α) (lvl : α → Int) (anc : Bool) (cb : α → β)
    (hdf : dfConsistent (items.map lvl) = true) (i : Nat) (hi : i < items.length) :
    ((tree_item_iterator items lvl anc cb).map (fun e => e.2.closed_levels)).getD i []
      = (List.range
            (((items.map lvl).getD i 0 -
              (if i + 1 < items.length then (items.map lvl).getD (i + 1) 0
               else (items.map lvl).getD 0 0 - 1)).toNat)).map
          (fun (k : Nat) => (items.map lvl).getD i 0 - (k : Int)) := by
  cases items with
  | nil => simp at hi
  | cons x rest =>
    rw [tii_map_closed, closedLvlsList_getD lvl (lvl x) x rest i hi,
      rangeDown_eq_map]
    simp

/-- Witness for C5 at levels `[0, 1, 2, 1, 0]`, frame `i = 2`
(whose `closed_levels` is `[2]`). -/
theorem closed_levels_eq_descending_range_witness :
    ((tree_item_iterator ([0, 1, 2, 1, 0] : List Int) id true (fun n => n)).map
        (fun e => e.2.closed_levels)).getD 2 []
      = (List.range
            (((([0, 1, 2, 1, 0] : List Int).map id).getD 2 0 -
              (if 2 + 1 < ([0, 1, 2, 1, 0] : List Int).length
               then (([0, 1, 2, 1, 0] : List Int).map id).getD (2 + 1) 0
               else (([0, 1, 2, 1, 0] : List Int).map id).getD 0 0 - 1)).toNat)).map
          (fun (k : Nat) => (([0, 1, 2, 1, 0] : List Int).map id).getD 2 0 - (k : Int)) :=
  closed_levels_eq_descending_range ([0, 1, 2, 1, 0] : List Int) id true
    (fun n => n) (by decide) 2 (by decide)

/-! ## Claim C7: the total number of closed levels

The claim states that the sum of `len(closed_levels)` equals
`(first level - last level) + #{nodes whose next node is at a shallower or
equal level}`.  That formula is wrong on the code (and inconsistent with
the claim's own "equivalently" clause): on the spec's own example
`[0, 1, 2, 1, 0]` the sum is 3 while the formula gives 2.  What does hold
is the "equivalently" phrasing: the sum equals the number of frames with
`new_level = true` (every level opened is closed exactly once). -/

theorem closedLvlsList_sum_length {α : Type u} (lvl : α → Int) (fil : Int)
    (x : α) (rest : List α) (hfl : fil ≤ lvl x)
    (hdf : dfcFrom fil (lvl x) (rest.map lvl) = true) :
    ((closedLvlsList lvl fil x rest).map (fun c => c.length)).sum
      = ((lvl x - fil).toNat + 1) + (newFlagsList lvl x rest).count true := by
  induction rest generalizing x with
  | nil =>
    simp only [closedLvlsList, newFlagsList, List.map_cons, List.map_nil,
      List.sum_cons, List.sum_nil, List.count_nil, length_rangeDown]
    omega
  | cons y rest ih =>
    simp only [List.map_cons, dfcFrom, Bool.and_eq_true, decide_eq_true_eq] at hdf
    obtain ⟨⟨h1, h2⟩, h3⟩ := hdf
    simp only [closedLvlsList, newFlagsList, List.map_cons, List.sum_cons,
      List.count_cons, length_rangeDown]
    rw [ih y h2 h3]
    by_cases hxy : lvl x < lvl y
    · have hd : decide (lvl x < lvl y) = true := decide_eq_true hxy
      simp [hd]
      omega
    · have hd : decide (lvl x < lvl y) = false := decide_eq_false hxy
      simp [hd]
      omega

/-- C7 counterexample: at levels `[0, 1, 2, 1, 0]` (the spec's own
scenario), the sum of `len(closed_levels)` over all frames is 3, while the
claimed formula `(first level − last level) + #{nodes whose next node is at
a shallower or equal level}` gives `(0 − 0) + 2 = 2`; the claimed equality
fails. -/
theorem closed_sum_formula_fails :
    ((tree_item_iterator ([0, 1, 2, 1, 0] : List Int) id false (fun n => n)).map
        (fun e => e.2.closed_levels.length)).sum = 3
    ∧ (((0 : Int) - 0).toNat
        + (([0, 1, 2, 1, 0] : List Int).zip ([0, 1, 2, 1, 0] : List Int).tail).countP
            (fun ab => ab.2 ≤ ab.1)) = 2
    ∧ ((tree_item_iterator ([0, 1, 2, 1, 0] : List Int) id false (fun n => n)).map
        (fun e => e.2.closed_levels.length)).sum
      ≠ (((0 : Int) - 0).toNat
        + (([0, 1, 2, 1, 0] : List Int).zip ([0, 1, 2, 1, 0] : List Int).tail).countP
            (fun ab => ab.2 ≤ ab.1)) := by
  refine ⟨by decide, by decide, by decide⟩

/-- C7 (amended): for every depth-first-consistent input sequence, the sum
over all frames of `len(closed_levels)` equals the number of frames with
`new_level = true` — every level opened is closed exactly once. -/
theorem closed_sum_eq_new_level_count {α : Type u} {β : Type v}
    (items : List α) (lvl : α → Int) (anc : Bool) (cb : α → β)
    (hdf : dfConsistent (items.map lvl) = true) :
    ((tree_item_iterator items lvl anc cb).map
        (fun e => e.2.closed_levels.length)).sum
      = ((tree_item_iterator items lvl anc cb).map
          (fun e => e.2.new_level)).count true := by
  cases items with
  | nil => rfl
  | cons x rest =>
    have hmm : ((tree_item_iterator (x :: rest) lvl anc cb).map
        (fun e => e.2.closed_levels.length))
        = ((tree_item_iterator (x :: rest) lvl anc cb).map
            (fun e => e.2.closed_levels)).map List.length := by
      rw [List.map_map]
      rfl
    rw [hmm, tii_map_closed, tii_map_new]
    have hdf2 : dfcFrom (lvl x) (lvl x) (rest.map lvl) = true := by
      simpa [dfConsistent] using hdf
    rw [closedLvlsList_sum_length lvl (lvl x) x rest le_rfl hdf2]
    simp [List.count_cons]
    omega

/-- Witness for the amended C7 at levels `[0, 1, 2, 1, 0]`. -/
theorem closed_sum_eq_new_level_count_witness :
    ((tree_item_iterator ([0, 1, 2, 1, 0] : List Int) id true (fun n => n)).map
        (fun e => e.2.closed_levels.length)).sum
      = ((tree_item_iterator ([0, 1, 2, 1, 0] : List Int) id true (fun n => n)).map
          (fun e => e.2.new_level)).count true :=
  closed_sum_eq_new_level_count ([0, 1, 2, 1, 0] : List Int) id true
    (fun n => n) (by decide)

/-! ## Claim C4: the ancestors invariant

The `ancestors` list does carry state from one frame to the next: each
iteration first pops as many entries as the *previous* frame closed levels,
then pushes the previous node when a new level starts.  The invariant
relating its length to the level offset is proved by induction along the
iteration. -/

theorem tiiGo_ancestors_len {α : Type u} {β : Type v} (lvl : α → Int) (cb : α → β)
    (rest : List α) (p x : α) (st : TStruct β) (fil : Int) (i : Nat)
    (hfl : fil ≤ lvl p)
    (hdf : dfcFrom fil (lvl p) ((x :: rest).map lvl) = true)
    (hanc : (st.ancestors.length : Int) = lvl p - fil)
    (hcl : st.closed_levels = rangeDown (lvl p) (lvl x))
    (hi : i < (x :: rest).length) :
    ((((tiiGo lvl true cb st fil (pcnAux (some p) (x :: rest))).map
        (fun e => e.2.ancestors.length)).getD i 0 : Nat) : Int)
      = ((x :: rest).map lvl).getD i 0 - fil := by
  induction rest generalizing p x st i with
  | nil =>
    simp only [List.map_cons, List.map_nil, dfcFrom, Bool.and_eq_true,
      decide_eq_true_eq] at hdf
    obtain ⟨hx1, hx2⟩ := hdf.1
    have h0 : i = 0 := by simpa using Nat.lt_one_iff.mp (by simpa using hi)
    subst h0
    simp only [pcnAux, tiiGo, List.map_cons, List.getD_cons_zero]
    rw [hcl]
    by_cases hpx : lvl p < lvl x
    · have hre : rangeDown (lvl p) (lvl x) = [] :=
        (rangeDown_eq_nil_iff _ _).mpr (by omega)
      simp [hre, hpx]
      omega
    · by_cases hlt : lvl x < lvl p
      · have hne : ¬rangeDown (lvl p) (lvl x) = [] := by
          rw [rangeDown_eq_nil_iff]; omega
        simp [hne, hpx, length_rangeDown]
        omega
      · have hre : rangeDown (lvl p) (lvl x) = [] :=
          (rangeDown_eq_nil_iff _ _).mpr (by omega)
        simp [hre, hpx]
        omega
  | cons y rest ih =>
    have hdf2 := hdf
    simp only [List.map_cons, dfcFrom, Bool.and_eq_true, decide_eq_true_eq] at hdf2
    obtain ⟨⟨hx1, hx2⟩, hdfTail⟩ := hdf2
    simp only [pcnAux, tiiGo, List.map_cons]
    cases i with
    | zero =>
      simp only [List.getD_cons_zero]
      rw [hcl]
      by_cases hpx : lvl p < lvl x
      · have hre : rangeDown (lvl p) (lvl x) = [] :=
          (rangeDown_eq_nil_iff _ _).mpr (by omega)
        simp [hre, hpx]
        omega
      · by_cases hlt : lvl x < lvl p
        · have hne : ¬rangeDown (lvl p) (lvl x) = [] := by
            rw [rangeDown_eq_nil_iff]; omega
          simp [hne, hpx, length_rangeDown]
          omega
        · have hre : rangeDown (lvl p) (lvl x) = [] :=
            (rangeDown_eq_nil_iff _ _).mpr (by omega)
          simp [hre, hpx]
          omega
    | succ j =>
      simp only [List.getD_cons_succ]
      refine ih x y _ j hx2 (by simpa [dfcFrom] using hdfTail) ?_ rfl
        (by simpa using hi)
      rw [hcl]
      by_cases hpx : lvl p < lvl x
      · have hre : rangeDown (lvl p) (lvl x) = [] :=
          (rangeDown_eq_nil_iff _ _).mpr (by omega)
        simp [hre, hpx]
        omega
      · by_cases hlt : lvl x < lvl p
        · have hne : ¬rangeDown (lvl p) (lvl x) = [] := by
            rw [rangeDown_eq_nil_iff]; omega
          simp [hne, hpx, length_rangeDown]
          omega
        · have hre : rangeDown (lvl p) (lvl x) = [] :=
            (rangeDown_eq_nil_iff _ _).mpr (by omega)
          simp [hre, hpx]
          omega

/-- C4: for every depth-first-consistent input, every frame emitted by
`tree_item_iterator` with `ancestors=True` satisfies
`len(ancestors) = level(current node) - level(first node)`. -/
theorem ancestors_length_eq_level_offset {α : Type u} {β : Type v}
    (items : List α) (lvl : α → Int) (cb : α → β)
    (hdf : dfConsistent (items.map lvl) = true) (i : Nat) (hi : i < items.length) :
    ((((tree_item_iterator items lvl true cb).map
        (fun e => e.2.ancestors.length)).getD i 0 : Nat) : Int)
      = (items.map lvl).getD i 0 - (items.map lvl).getD 0 0 := by
  cases items with
  | nil => simp at hi
  | cons x rest =>
    rw [tree_item_iterator, previous_current_next_eq_pcnAux]
    cases rest with
    | nil =>
      have h0 : i = 0 := by simpa using Nat.lt_one_iff.mp (by simpa using hi)
      subst h0
      simp [pcnAux, tiiGo]
    | cons y rest =>
      cases i with
      | zero => simp [pcnAux, tiiGo]
      | succ j =>
        have hdf2 : dfcFrom (lvl x) (lvl x) ((y :: rest).map lvl) = true := by
          simpa [dfConsistent] using hdf
        simp only [pcnAux, tiiGo, List.map_cons, List.getD_cons_succ,
          List.length_cons] at hi ⊢
        have := tiiGo_ancestors_len lvl cb rest x y
          ⟨true, rangeDown (lvl x) (lvl y), []⟩ (lvl x) j le_rfl hdf2
          (by simp) rfl (by simpa using hi)
        simpa using this

/-- Witness for C4 at levels `[0, 1, 2, 1, 0]`, frame `i = 2` (whose
`ancestors` list has two entries). -/
theorem ancestors_length_eq_level_offset_witness :
    ((((tree_item_iterator ([0, 1, 2, 1, 0] : List Int) id true (fun n => n)).map
        (fun e => e.2.ancestors.length)).getD 2 0 : Nat) : Int)
      = (([0, 1, 2, 1, 0] : List Int).map id).getD 2 0
        - (([0, 1, 2, 1, 0] : List Int).map id).getD 0 0 :=
  ancestors_length_eq_level_offset ([0, 1, 2, 1, 0] : List Int) id
    (fun n => n) (by decide) 2 (by decide)

/-! ## Claim C6: the Windowed Iterator's triples -/

/-- C6: for every finite input sequence of length `n`,
`previous_current_next` yields exactly `n` triples; triple `i`'s `current`
component equals `input[i]`; the `previous` component is `none` iff `i = 0`;
the `next` component is `none` iff `i = n - 1`. -/
theorem pcn_windowed_triples {α : Type u} (items : List α) (i : Nat)
    (hi : i < items.length) :
    (previous_current_next items).length = items.length
    ∧ ((previous_current_next items).map (fun t => t.2.1))[i]? = some items[i]?
    ∧ (((previous_current_next items).map (fun t => t.1))[i]? = some none ↔ i = 0)
    ∧ (((previous_current_next items).map (fun t => t.2.2))[i]? = some none
        ↔ i = items.length - 1) := by
  rw [previous_current_next_eq_pcnAux]
  refine ⟨pcnAux_length none items, ?_, ?_, ?_⟩
  · rw [List.getElem?_map, pcnAux_getElem? none items i hi]
    rfl
  · rw [List.getElem?_map, pcnAux_getElem? none items i hi]
    simp only [Option.map_some']
    by_cases h0 : i = 0
    · simp [h0]
    · have hlt : i - 1 < items.length := by omega
      simp [h0, List.getElem?_eq_getElem hlt]
  · rw [List.getElem?_map, pcnAux_getElem? none items i hi]
    simp only [Option.map_some', Option.some_inj]
    rw [List.getElem?_eq_none_iff]
    omega

/-- Witness for C6 at the concrete input `[10, 20, 30]`, `i = 1`. -/
theorem pcn_windowed_triples_witness :
    (previous_current_next ([10, 20, 30] : List Int)).length
        = ([10, 20, 30] : List Int).length
    ∧ ((previous_current_next ([10, 20, 30] : List Int)).map (fun t => t.2.1))[1]?
        = some (([10, 20, 30] : List Int)[1]?)
    ∧ (((previous_current_next ([10, 20, 30] : List Int)).map (fun t => t.1))[1]?
        = some none ↔ (1 : Nat) = 0)
    ∧ (((previous_current_next ([10, 20, 30] : List Int)).map (fun t => t.2.2))[1]?
        = some none ↔ (1 : Nat) = ([10, 20, 30] : List Int).length - 1) :=
  pcn_windowed_triples ([10, 20, 30] : List Int) 1 (by decide)

/-! ## Claim C9: plain lists get no filtered-mode tolerance

For a plain list (no `query` attribute), `is_filtered` is false, so
`root_level` is fixed by the first node for the whole pass and every later
node below it raises the ordering `ValueError`. -/

theorem truncatePath_ne_nil (path : List Nat) (t : Int) (h1 : 1 ≤ t)
    (h2 : path ≠ []) : truncatePath path t ≠ [] := by
  rw [truncatePath_eq_take path t (by omega)]
  cases path with
  | nil => exact absurd rfl h2
  | cons a l =>
    have ht : t.toNat = t.toNat - 1 + 1 := by omega
    rw [ht]
    simp

/-- If the state has an established root level `r` and a nonempty path, and
some remaining node's level is below `r`, the unfiltered loop ends in the
ordering error. -/
theorem ctRun_error_of_below_root (pairs : List (Nat × Int)) (r : Int) :
    ∀ s : CTState, s.root_level = some r → s.current_path ≠ [] →
      (∃ q ∈ pairs, q.2 < r) →
      ctRun false s pairs = .error .orderViolation := by
  induction pairs with
  | nil =>
    intro s _ _ hex
    simp at hex
  | cons q pairs ih =>
    intro s hrl hpath hex
    obtain ⟨i, L⟩ := q
    by_cases hL : L < r
    · simp [ctRun, ctStep, hrl, hL]
    · have hex2 : ∃ q ∈ pairs, q.2 < r := by
        rcases hex with ⟨q, hq, hq2⟩
        rcases List.mem_cons.mp hq with h | h
        · subst h; exact absurd hq2 hL
        · exact ⟨q, h, hq2⟩
      by_cases hLr : L = r
      · rw [ctRun]
        have hstep : ctStep false s i L =
            .ok { current_path := truncatePath s.current_path (L - r) ++ [i],
                  top_nodes := s.top_nodes ++ [i],
                  root_level := some r,
                  cached_children := updateFn s.cached_children i [],
                  parent := s.parent,
                  use_cached_ancestors := s.use_cached_ancestors } := by
          simp [ctStep, hrl, hL, hLr]
        rw [hstep]
        exact ih _ rfl (by simp) hex2
      · have hne : truncatePath s.current_path (L - r) ≠ [] :=
          truncatePath_ne_nil _ _ (by omega) hpath
        obtain ⟨z, hz⟩ : ∃ z, (truncatePath s.current_path (L - r)).getLast? = some z := by
          cases hzz : (truncatePath s.current_path (L - r)).getLast? with
          | none => exact absurd (List.getLast?_eq_none_iff.mp hzz) hne
          | some z => exact ⟨z, rfl⟩
        have hok : ctStep false s i L =
            .ok { current_path := truncatePath s.current_path (L - r) ++ [i],
                  top_nodes := s.top_nodes,
                  root_level := some r,
                  cached_children :=
                    updateFn (updateFn s.cached_children i []) z
                      ((updateFn s.cached_children i []) z ++ [i]),
                  parent := updateFn s.parent i (some z),
                  use_cached_ancestors :=
                    if r = 0 then updateFn s.use_cached_ancestors i true
                    else s.use_cached_ancestors } := by
          simp [ctStep, hrl, hz, hL, hLr]
        rw [ctRun, hok]
        exact ih _ rfl (by simp) hex2

theorem mem_enumFrom_of_mem {α : Type u} (l : List α) (a : α) (h : a ∈ l) :
    ∀ n : Nat, ∃ k, (k, a) ∈ List.enumFrom n l := by
  induction l with
  | nil => simp at h
  | cons x t ih =>
    intro n
    rcases List.mem_cons.mp h with h1 | h1
    · subst h1; exact ⟨n, by simp [List.enumFrom]⟩
    · obtain ⟨k, hk⟩ := ih h1 (n + 1)
      exact ⟨k, by simp [List.enumFrom, hk]⟩

/-- C9: on a plain list (no `query` attribute, hence never filtered mode),
any node after the first whose level is strictly below the first node's
level makes `get_cached_trees` raise the ordering `ValueError`; there is no
root-level-lowering tolerance. -/
theorem plain_list_below_first_raises (l₀ : Int) (rest : List Int) (L : Int)
    (hL : L ∈ rest) (hlt : L < l₀) :
    getCachedTreesOnList (l₀ :: rest) = .error .orderViolation := by
  rw [getCachedTreesOnList, getCachedTrees]
  have henum : (l₀ :: rest).enum = (0, l₀) :: List.enumFrom 1 rest := rfl
  rw [henum, ctRun]
  have hstep1 : ctStep false initCTState 0 l₀ =
      .ok { current_path := [0], top_nodes := [0], root_level := some l₀,
            cached_children := updateFn initCTState.cached_children 0 [],
            parent := initCTState.parent,
            use_cached_ancestors := initCTState.use_cached_ancestors } := by
    simp [ctStep, initCTState, truncatePath, truncGo]
  rw [hstep1]
  obtain ⟨k, hk⟩ := mem_enumFrom_of_mem rest L hL 1
  exact ctRun_error_of_below_root _ l₀ _ rfl (by simp) ⟨(k, L), hk, hlt⟩

/-- Witness for C9: the plain list with levels `[1, 2, 0]` raises the
ordering error (node at level 0 after a first node at level 1). -/
theorem plain_list_below_first_raises_witness :
    getCachedTreesOnList [1, 2, 0] = .error .orderViolation :=
  plain_list_below_first_raises 1 [2, 0] 0 (by simp) (by norm_num)

/-! ## Claim C3: every cached parent sits one level above its child

Invariant of the reconstruction loop, for depth-first-consistent input:
`root_level` stays at the first node's level `l₀` (lowering would need a
level below `l₀`, which depth-first consistency forbids), the path stack
always holds exactly the nodes at levels `l₀, l₀+1, ..., Lp` in order
(where `Lp` is the last processed node's level), and every parent link made
so far connects across exactly one level. -/

theorem ctRun_parent_level (levels : List Int) (l₀ : Int) (filtered : Bool) :
    ∀ (rest : List Int) (k : Nat) (s : CTState) (Lp : Int),
      levels.drop k = rest →
      s.root_level = some l₀ →
      ((s.current_path.length : Nat) : Int) = Lp - l₀ + 1 →
      dfcFrom l₀ Lp rest = true →
      (∀ idx, idx < s.current_path.length →
        levels.getD (s.current_path.getD idx 0) 0 = l₀ + idx) →
      (∀ j p, s.parent j = some p → levels.getD p 0 = levels.getD j 0 - 1) →
      ∀ s₂, ctRun filtered s (List.enumFrom k rest) = .ok s₂ →
      ∀ j p, s₂.parent j = some p → levels.getD p 0 = levels.getD j 0 - 1 := by
  intro rest
  induction rest with
  | nil =>
    intro k s Lp _ _ _ _ _ hpar s₂ hrun
    simp only [List.enumFrom, ctRun] at hrun
    cases hrun
    exact hpar
  | cons x rest ih =>
    intro k s Lp hdrop hrl hlen hgo hpath hpar s₂ hrun
    simp only [dfcFrom, Bool.and_eq_true, decide_eq_true_eq] at hgo
    obtain ⟨⟨hx1, hx2⟩, hgoTail⟩ := hgo
    have hxk : levels.getD k 0 = x := by
      have h1 : levels[k]? = some x := by
        have h2 := List.getElem?_drop levels k 0
        rw [hdrop] at h2
        simpa using h2.symm
      simp [List.getD_eq_getElem?_getD, h1]
    have hdrop2 : levels.drop (k + 1) = rest := by
      rw [← List.tail_drop, hdrop]
      rfl
    have hne0 : ¬ x < l₀ := not_lt.mpr hx2
    have htr : truncatePath s.current_path (x - l₀)
        = s.current_path.take (x - l₀).toNat :=
      truncatePath_eq_take _ _ (by omega)
    have hlentr : (s.current_path.take (x - l₀).toNat).length = (x - l₀).toNat := by
      rw [List.length_take]
      omega
    rw [List.enumFrom, ctRun] at hrun
    by_cases hxeq : x = l₀
    · subst hxeq
      have htr0 : truncatePath s.current_path 0 = [] := by
        rw [truncatePath_eq_take _ _ le_rfl]
        simp
      have hok : ctStep filtered s k x =
          .ok { current_path := [k],
                top_nodes := s.top_nodes ++ [k],
                root_level := some x,
                cached_children := updateFn s.cached_children k [],
                parent := s.parent,
                use_cached_ancestors := s.use_cached_ancestors } := by
        simp [ctStep, hrl, hne0, htr0]
      rw [hok] at hrun
      replace hrun : ctRun filtered
          { current_path := [k], top_nodes := s.top_nodes ++ [k],
            root_level := some x,
            cached_children := updateFn s.cached_children k [],
            parent := s.parent,
            use_cached_ancestors := s.use_cached_ancestors }
          (List.enumFrom (k + 1) rest) = .ok s₂ := hrun
      refine ih (k + 1)
        { current_path := [k], top_nodes := s.top_nodes ++ [k],
          root_level := some x,
          cached_children := updateFn s.cached_children k [],
          parent := s.parent,
          use_cached_ancestors := s.use_cached_ancestors } x
        hdrop2 rfl (by simp) hgoTail ?_ hpar s₂ hrun
      intro idx hidx
      dsimp only at hidx ⊢
      have h0 : idx = 0 := by simpa using hidx
      subst h0
      simpa using hxk
    · have hx0 : l₀ < x := lt_of_le_of_ne hx2 (Ne.symm hxeq)
      have hp : (s.current_path.take (x - l₀).toNat).getLast?
          = some (s.current_path.getD ((x - l₀).toNat - 1) 0) := by
        rw [List.getLast?_eq_getElem?, hlentr, List.getElem?_take,
          if_pos (by omega)]
        have hlt : (x - l₀).toNat - 1 < s.current_path.length := by omega
        rw [List.getElem?_eq_getElem hlt, List.getD_eq_getElem?_getD,
          List.getElem?_eq_getElem hlt]
        rfl
      have hok : ctStep filtered s k x =
          .ok { current_path := s.current_path.take (x - l₀).toNat ++ [k],
                top_nodes := s.top_nodes,
                root_level := some l₀,
                cached_children :=
                  updateFn (updateFn s.cached_children k [])
                    (s.current_path.getD ((x - l₀).toNat - 1) 0)
                    ((updateFn s.cached_children k [])
                      (s.current_path.getD ((x - l₀).toNat - 1) 0) ++ [k]),
                parent := updateFn s.parent k
                  (some (s.current_path.getD ((x - l₀).toNat - 1) 0)),
                use_cached_ancestors :=
                  if l₀ = 0 then updateFn s.use_cached_ancestors k true
                  else s.use_cached_ancestors } := by
        simp [ctStep, hrl, hne0, hxeq, htr, hp]
      rw [hok] at hrun
      replace hrun : ctRun filtered
          { current_path := s.current_path.take (x - l₀).toNat ++ [k],
            top_nodes := s.top_nodes,
            root_level := some l₀,
            cached_children :=
              updateFn (updateFn s.cached_children k [])
                (s.current_path.getD ((x - l₀).toNat - 1) 0)
                ((updateFn s.cached_children k [])
                  (s.current_path.getD ((x - l₀).toNat - 1) 0) ++ [k]),
            parent := updateFn s.parent k
              (some (s.current_path.getD ((x - l₀).toNat - 1) 0)),
            use_cached_ancestors :=
              if l₀ = 0 then updateFn s.use_cached_ancestors k true
              else s.use_cached_ancestors }
          (List.enumFrom (k + 1) rest) = .ok s₂ := hrun
      refine ih (k + 1)
        { current_path := s.current_path.take (x - l₀).toNat ++ [k],
          top_nodes := s.top_nodes,
          root_level := some l₀,
          cached_children :=
            updateFn (updateFn s.cached_children k [])
              (s.current_path.getD ((x - l₀).toNat - 1) 0)
              ((updateFn s.cached_children k [])
                (s.current_path.getD ((x - l₀).toNat - 1) 0) ++ [k]),
          parent := updateFn s.parent k
            (some (s.current_path.getD ((x - l₀).toNat - 1) 0)),
          use_cached_ancestors :=
            if l₀ = 0 then updateFn s.use_cached_ancestors k true
            else s.use_cached_ancestors } x
        hdrop2 rfl (by simp [hlentr]; omega) hgoTail ?_ ?_ s₂ hrun
      · intro idx hidx
        dsimp only at hidx ⊢
        simp only [List.length_append, hlentr, List.length_cons,
          List.length_nil] at hidx
        by_cases hlt : idx < (x - l₀).toNat
        · rw [List.getD_append _ _ _ idx (by rw [hlentr]; exact hlt)]
          have hlt2 : idx < s.current_path.length := by omega
          have htake : (List.take ((x - l₀).toNat) s.current_path).getD idx 0
              = s.current_path.getD idx 0 := by
            rw [List.getD_eq_getElem?_getD, List.getElem?_take, if_pos hlt,
              ← List.getD_eq_getElem?_getD]
          rw [htake]
          exact hpath idx hlt2
        · have hidx2 : idx = (x - l₀).toNat := by omega
          subst hidx2
          rw [List.getD_append_right _ _ _ _ (by simp [hlentr]), hlentr]
          simp only [Nat.sub_self, List.getD_cons_zero]
          rw [hxk]
          omega
      · intro j p hjp
        dsimp only at hjp
        by_cases hjk : j = k
        · subst hjk
          have hupd : updateFn s.parent j
              (some (s.current_path.getD ((x - l₀).toNat - 1) 0)) j
              = some (s.current_path.getD ((x - l₀).toNat - 1) 0) := by
            simp [updateFn]
          rw [hupd] at hjp
          have hjp2 := Option.some_inj.mp hjp
          subst hjp2
          have hlt : (x - l₀).toNat - 1 < s.current_path.length := by omega
          have h2 := hpath ((x - l₀).toNat - 1) hlt
          rw [h2, hxk]
          omega
        · simp only [updateFn, if_neg hjk] at hjp
          exact hpar j p hjp

/-- C3: after a completed `get_cached_trees` pass (either mode) over a
depth-first-consistent input, every node that received a parent link has a
parent whose level is exactly one less than its own. -/
theorem parent_level_eq_child_level_sub_one (levels : List Int)
    (filtered : Bool) (hdf : dfConsistent levels = true) (j p : Nat)
    (hp : (getCachedTrees filtered levels).map (fun s => s.parent j)
            = .ok (some p)) :
    levels.getD p 0 = levels.getD j 0 - 1 := by
  cases levels with
  | nil => simp [getCachedTrees, ctRun, initCTState, Except.map] at hp
  | cons l₀ rest =>
    cases hres : getCachedTrees filtered (l₀ :: rest) with
    | error e => rw [hres] at hp; simp [Except.map] at hp
    | ok s₂ =>
      rw [hres] at hp
      simp only [Except.map, Except.ok.injEq] at hp
      rw [getCachedTrees, List.enum_cons, ctRun] at hres
      have hstep1 : ctStep filtered initCTState 0 l₀ =
          .ok { current_path := [0], top_nodes := [0], root_level := some l₀,
                cached_children := updateFn initCTState.cached_children 0 [],
                parent := initCTState.parent,
                use_cached_ancestors := initCTState.use_cached_ancestors } := by
        simp [ctStep, initCTState, truncatePath, truncGo]
      rw [hstep1] at hres
      have hgo : dfcFrom l₀ l₀ rest = true := hdf
      refine ctRun_parent_level (l₀ :: rest) l₀ filtered rest 1 _ l₀ rfl rfl
        (by simp) hgo ?_ (by intro j p h; simp [initCTState] at h) s₂ hres j p hp
      intro idx hidx
      dsimp only at hidx ⊢
      have h0 : idx = 0 := by simpa using hidx
      subst h0
      simp

/-- Witness for C3: levels `[0, 1, 2, 1]`, node 2 (level 2) has parent
node 1 (level 1). -/
theorem parent_level_eq_child_level_sub_one_witness :
    ([0, 1, 2, 1] : List Int).getD 1 0 = ([0, 1, 2, 1] : List Int).getD 2 0 - 1 :=
  parent_level_eq_child_level_sub_one [0, 1, 2, 1] false (by decide) 2 1 rfl

/-! ## Claim C10: empty input -/

/-- C10: on the empty input, `get_cached_trees` (in either mode) returns an
empty list of top nodes and raises no error, and `tree_item_iterator` (with
or without ancestor tracking) yields no pairs. -/
theorem empty_input_empty_output :
    (getCachedTrees false []).map CTState.top_nodes = .ok []
    ∧ (getCachedTrees true []).map CTState.top_nodes = .ok []
    ∧ tree_item_iterator ([] : List Int) id true (fun n => n) = []
    ∧ tree_item_iterator ([] : List Int) id false (fun n => n) = [] :=
  ⟨rfl, rfl, rfl, rfl⟩

/-! ## Claim C8: filtered sequence with levels `[2, 3, 2]` -/

/-- C8: on levels `[2, 3, 2]` in filtered mode, the returned top-node list
is exactly the two level-2 nodes (positions 0 and 2) in arrival order, the
level-3 node (position 1) gets node 0 as its cached parent and appears in
node 0's cached children list, and no other parent/child links are made. -/
theorem filtered_two_roots_scenario :
    (getCachedTrees true [2, 3, 2]).map
        (fun s => (s.top_nodes, s.cached_children 0, s.parent 1,
                   s.parent 0, s.parent 2, s.cached_children 1, s.cached_children 2))
      = .ok ([0, 2], [1], some 0, none, none, [], []) :=
  rfl

/-! ## Claim C1: levels `[0, 1, 0, 2]`

The claim states that `get_cached_trees` raises the ordering `ValueError`
on a sequence with levels `[0, 1, 0, 2]`.  The code only raises when a
node's level falls *below* the established root level
(`elif node_level < root_level`), and a jump from level 0 to level 2 never
triggers that test; instead node 3 is silently attached to node 2.  The
claim is therefore false on the code. -/

/-- C1 counterexample: on levels `[0, 1, 0, 2]` (plain-list mode, no
filters), `get_cached_trees` completes without raising any error. -/
theorem levels_0102_no_error :
    (getCachedTreesOnList [0, 1, 0, 2]).isOk = true :=
  rfl

/-- C1 (amended): on levels `[0, 1, 0, 2]`, `get_cached_trees` (in either
mode) raises nothing; it returns the two level-0 nodes (positions 0 and 2)
as top nodes and attaches the level-2 node (position 3) as a cached child
of node 2, with node 1 a cached child of node 0. -/
theorem levels_0102_completes :
    ∀ is_filtered : Bool,
      (getCachedTrees is_filtered [0, 1, 0, 2]).map
          (fun s => (s.top_nodes, s.parent 1, s.parent 3,
                     s.cached_children 0, s.cached_children 2))
        = .ok ([0, 2], some 0, some 2, [1], [3]) := by
  intro is_filtered
  cases is_filtered <;> rfl

end Mptt
